import Mathlib

/-!
Verification development for the pummeler pipeline (`pummeler/cli.py` and the
components it drives).  The CLI source is embedded directly; the library
modules it calls (`sort.sort_by_region`, `stats`, `featurize.get_embeddings`)
are modelled from the specification where noted.  Machine floats are modelled
as exact rationals, strings as lists of characters where slicing matters.
-/

namespace Pummeler

/-! ## Rows

A `Row` carries the fields of one microdata record that the claims touch:
the region identifier, voter-eligibility fields (citizenship, age), the
sampling weight, the reported income fields together with the per-record
income adjustment factor, and the already-encoded feature vector used by the
embedding engine. -/

structure Row where
  region : List Char
  citizen : Bool
  age : Nat
  weight : ℚ
  incomes : List ℚ
  adjFactor : ℚ
  feats : List ℚ
deriving DecidableEq, Repr

/-! ## Statistics Accumulator (modelled from the spec)

`sort.py` / `stats.py` are not in the source tree; the accumulator is
modelled from the spec: per categorical field a growing set of observed
distinct values, per continuous field running weighted sum, weighted
sum-of-squares and total weight, finalized into vocabulary (sorted), weighted
mean and weighted population variance. -/

/-- One row as seen by the Statistics Accumulator: a categorical value, a
continuous value and a sampling weight. -/
structure StatRow where
  cat : ℤ
  val : ℚ
  wt : ℚ
deriving DecidableEq, Repr

/-- Modelled from the spec: the accumulator state of `4.1 Statistics
Accumulator` — observed categorical values plus running weighted sum,
weighted sum of squares and total weight. -/
structure StatState where
  vocab : List ℤ
  wSum : ℚ
  wSumSq : ℚ
  wTot : ℚ
deriving DecidableEq, Repr

def initStats : StatState := ⟨[], 0, 0, 0⟩

/-- Modelled from the spec: single-row update of the accumulator state. -/
def statStep (s : StatState) (r : StatRow) : StatState where
  vocab := if r.cat ∈ s.vocab then s.vocab else s.vocab ++ [r.cat]
  wSum := s.wSum + r.wt * r.val
  wSumSq := s.wSumSq + r.wt * r.val * r.val
  wTot := s.wTot + r.wt

/-- Modelled from the spec: `accumulate(stats_state, chunk) -> stats_state`,
one chunk at a time. -/
def accumulate (s : StatState) (chunk : List StatRow) : StatState :=
  chunk.foldl statStep s

/-- Finalized Stats: deterministic (sorted) vocabulary, weighted mean and
weighted population variance (the standard deviation is its square root, so
equal variances mean equal standard deviations). -/
structure Stats where
  vocab : List ℤ
  mean : ℚ
  var : ℚ
deriving DecidableEq, Repr

/-- Modelled from the spec: `finalize(stats_state) -> Stats`. -/
def finalize (s : StatState) : Stats where
  vocab := s.vocab.insertionSort (· ≤ ·)
  mean := s.wSum / s.wTot
  var := s.wSumSq / s.wTot - (s.wSum / s.wTot) * (s.wSum / s.wTot)

/-- Feeding the accumulator chunk by chunk is the same as folding the
single-row step over the concatenation of the chunks. -/
theorem accumulate_chunks_eq (init : StatState) (chunks : List (List StatRow)) :
    chunks.foldl accumulate init = chunks.flatten.foldl statStep init := by
  rw [List.foldl_flatten]
  rfl

/-- C2: for any fixed input, the Statistics Accumulator's finalized Stats are
identical regardless of the chunking used to feed it: any two chunkings of
the same row sequence finalize to equal Stats (weighted means and variances,
hence standard deviations, coincide exactly over ℚ). -/
theorem statsAccumulator_chunk_invariant (c₁ c₂ : List (List StatRow))
    (h : c₁.flatten = c₂.flatten) :
    finalize (c₁.foldl accumulate initStats) =
      finalize (c₂.foldl accumulate initStats) := by
  rw [accumulate_chunks_eq, accumulate_chunks_eq, h]

/-- Witness for C2 at a concrete input: two different chunkings of the same
three rows finalize to the same Stats. -/
theorem statsAccumulator_chunk_invariant_witness :
    finalize (([[⟨1, 2, 3⟩, ⟨0, 1, 1⟩], [⟨1, 4, 2⟩]] :
        List (List StatRow)).foldl accumulate initStats) =
      finalize (([[⟨1, 2, 3⟩], [⟨0, 1, 1⟩, ⟨1, 4, 2⟩], []] :
        List (List StatRow)).foldl accumulate initStats) :=
  statsAccumulator_chunk_invariant _ _ rfl

/-! ## Region-store file names (`cli.py`)

`do_sort` hands `sort_by_region` the pattern `feats_{}.h5` (cli.py:161), so a
region `r`'s store is the file `feats_r.h5`.  `do_featurize` recovers the
region name as `os.path.basename(f)[6:-3]` (cli.py:172); `do_weight_counts`
keeps files starting with `feats_` and ending with `.h5` and strips those
affixes (cli.py:241-242). -/

/-- The store file name the sort phase writes for region `r`: the pattern
`feats_{}.h5` from cli.py:161 with `r` substituted. -/
def regionFileName (r : List Char) : List Char :=
  "feats_".data ++ r ++ ".h5".data

/-- `do_featurize`'s region name: the Python slice `basename[6:-3]`. -/
def featurizeRegionName (basename : List Char) : List Char :=
  (basename.take (basename.length - 3)).drop 6

/-- `do_weight_counts`'s region name: `fn[len('feats_'):-len('.h5')]`. -/
def weightCountsRegionName (fn : List Char) : List Char :=
  (fn.take (fn.length - ".h5".data.length)).drop "feats_".data.length

/-- `do_weight_counts`'s file test: `fn.startswith('feats_') and
fn.endswith('.h5')` (a string starts with `p` when its first `len(p)`
characters equal `p`, and ends with `s` when its last `len(s)` characters
equal `s`). -/
def isFeatsFile (fn : List Char) : Bool :=
  (fn.take "feats_".data.length == "feats_".data) &&
    (fn.drop (fn.length - ".h5".data.length) == ".h5".data)

/-- Slicing off a fixed-length affix pair recovers the middle of a
three-part concatenation. -/
theorem take_drop_middle_append (a r b : List Char) :
    ((a ++ r ++ b).take ((a ++ r ++ b).length - b.length)).drop a.length = r := by
  have h : (a ++ r ++ b).length - b.length = (a ++ r).length := by
    simp
    omega
  rw [h, List.take_left, List.drop_left]

/-- A three-part concatenation starts with its first part and ends with its
last part. -/
theorem take_drop_affix_append (a r b : List Char) :
    (((a ++ r ++ b).take a.length == a) &&
      ((a ++ r ++ b).drop ((a ++ r ++ b).length - b.length) == b)) = true := by
  rw [Bool.and_eq_true, beq_iff_eq, beq_iff_eq]
  constructor
  · rw [List.append_assoc]
    exact List.take_left a (r ++ b)
  · have h : (a ++ r ++ b).length - b.length = (a ++ r).length := by
      simp
      omega
    rw [h, List.drop_left]

/-- C9: region identifiers round-trip through the file-name convention: both
`do_featurize` and `do_weight_counts` recover exactly `r` from the file name
`feats_r.h5` the sort phase writes (which `do_weight_counts` also accepts as
a store file), so the two commands agree on the region label of every
store. -/
theorem region_name_roundtrip (r : List Char) :
    featurizeRegionName (regionFileName r) = r ∧
      weightCountsRegionName (regionFileName r) = r ∧
      isFeatsFile (regionFileName r) = true :=
  ⟨take_drop_middle_append "feats_".data r ".h5".data,
   take_drop_middle_append "feats_".data r ".h5".data,
   take_drop_affix_append "feats_".data r ".h5".data⟩

/-! ## The sort phase (`do_sort`, cli.py:156-164)

`do_sort` calls `sort_by_region(..., voters_only=args.voters_only,
adj_inc=True, ...)`; the `sort` subcommand's `--voters-only` flag defaults to
true (cli.py:50-54).  `sort.sort_by_region` itself is not in the source tree,
so the filter, the income adjustment and the routing are modelled from the
spec. -/

/-- Modelled from the spec: the voter-eligibility test of `sort_by_region` —
keep only citizen records aged at least 18. -/
def eligibleVoter (r : Row) : Bool :=
  r.citizen && decide (18 ≤ r.age)

/-- Modelled from the spec: the record filter of the sort phase — eligible
voters only when `voters_only` is set, all records otherwise. -/
def filterRows (votersOnly : Bool) (rows : List Row) : List Row :=
  if votersOnly then rows.filter eligibleVoter else rows

/-- The `sort` subcommand's `--voters-only` default (cli.py:50). -/
def sortVotersOnlyDefault : Bool := true

/-- `do_sort` always passes `adj_inc=True` to `sort_by_region`
(cli.py:163). -/
def doSortAdjInc : Bool := true

/-- Modelled from the spec: the row sequence underlying the Statistics
Accumulator during the sort phase — the filtered input. -/
def statsInputRows (votersOnly : Bool) (rows : List Row) : List Row :=
  filterRows votersOnly rows

/-- Modelled from the spec: the row sequence underlying the Region
Partitioner — the identical filter applied to the same input. -/
def partitionInputRows (votersOnly : Bool) (rows : List Row) : List Row :=
  filterRows votersOnly rows

/-- C5: with `voters_only` enabled (the sort command's default), the sort
phase keeps exactly the citizen records aged at least 18, and the statistics
accumulation and the region partitioning are fed the very same filtered row
sequence. -/
theorem voters_only_filter (rows : List Row) :
    sortVotersOnlyDefault = true ∧
      statsInputRows sortVotersOnlyDefault rows =
        rows.filter (fun r => r.citizen && decide (18 ≤ r.age)) ∧
      (∀ r, r ∈ statsInputRows sortVotersOnlyDefault rows ↔
        r ∈ rows ∧ r.citizen = true ∧ 18 ≤ r.age) ∧
      statsInputRows sortVotersOnlyDefault rows =
        partitionInputRows sortVotersOnlyDefault rows := by
  refine ⟨rfl, rfl, ?_, rfl⟩
  intro r
  simp [statsInputRows, filterRows, sortVotersOnlyDefault, eligibleVoter,
    List.mem_filter, and_assoc]

/-- Modelled from the spec: the income adjustment — multiply each reported
income field by the record's adjustment factor. -/
def adjustIncome (r : Row) : Row :=
  { r with incomes := r.incomes.map (fun v => r.adjFactor * v) }

/-- Modelled from the spec: the rows the sort phase persists to region `g`'s
store — filtered, income-adjusted when `adj_inc` is set, and routed by the
region field. -/
def sortStoredRows (adjInc votersOnly : Bool) (rows : List Row)
    (g : List Char) : List Row :=
  ((filterRows votersOnly rows).map
      (fun r => cond adjInc (adjustIncome r) r)).filter
    (fun r => r.region == g)

/-- C6: the CLI sort command always enables the income adjustment
(`adj_inc=True`, cli.py:163), and every row persisted to a region store is
the income-adjusted image of a filtered input row: its income fields are the
original ones multiplied by the per-record adjustment factor. -/
theorem sort_stores_adjusted_incomes (votersOnly : Bool) (rows : List Row)
    (g : List Char) (s : Row)
    (hs : s ∈ sortStoredRows doSortAdjInc votersOnly rows g) :
    doSortAdjInc = true ∧
      ∃ r ∈ filterRows votersOnly rows,
        s = adjustIncome r ∧
          s.incomes = r.incomes.map (fun v => r.adjFactor * v) := by
  refine ⟨rfl, ?_⟩
  simp only [sortStoredRows, doSortAdjInc, cond_true, List.mem_filter,
    List.mem_map] at hs
  obtain ⟨⟨r, hr, rfl⟩, -⟩ := hs
  exact ⟨r, hr, rfl, rfl⟩

/-- A sample record used to instantiate witnesses. -/
def sampleRow : Row :=
  { region := ['A'], citizen := true, age := 30, weight := 2,
    incomes := [5, 7], adjFactor := 3, feats := [1, 2] }

/-- Witness for C6 at a concrete input: the adjusted sample record is stored
in region `A`'s store and is the adjusted image of a filtered input row. -/
theorem sort_stores_adjusted_incomes_witness :
    doSortAdjInc = true ∧
      ∃ r ∈ filterRows true [sampleRow],
        adjustIncome sampleRow = adjustIncome r ∧
          (adjustIncome sampleRow).incomes =
            r.incomes.map (fun v => r.adjFactor * v) :=
  sort_stores_adjusted_incomes true [sampleRow] ['A'] (adjustIncome sampleRow)
    (List.Mem.head _)

/-! ## Per-region weight bookkeeping (C1)

The partitioning phase appends each chunk's per-region sub-table to that
region's store and adds its weight sum to the store's running `total_wt`
(spec §4.2); `do_weight_counts` reads that scalar back (cli.py:244).  The
featurization phase re-reads a region's store in chunks of its own and
accumulates the total weight it reports as `region_weights` (spec §4.5).
`sort.py` and `featurize.py` are not in the source tree, so both
accumulations are modelled from the spec. -/

/-- Total sampling weight of a list of rows. -/
def weightOf (rows : List Row) : ℚ := (rows.map Row.weight).sum

theorem weightOf_nil : weightOf [] = 0 := rfl

theorem weightOf_cons (r : Row) (l : List Row) :
    weightOf (r :: l) = r.weight + weightOf l := by
  simp [weightOf]

theorem weightOf_append (l₁ l₂ : List Row) :
    weightOf (l₁ ++ l₂) = weightOf l₁ + weightOf l₂ := by
  simp [weightOf]

/-- Modelled from the spec: the sub-table of a chunk that the Region
Partitioner routes to region `g`. -/
def regionSubTable (g : List Char) (chunk : List Row) : List Row :=
  chunk.filter (fun r => r.region == g)

/-- Modelled from the spec: region `g`'s store contents after partitioning —
each chunk's sub-table appended in order. -/
def storeRows (g : List Char) (chunks : List (List Row)) : List Row :=
  (chunks.map (regionSubTable g)).flatten

/-- Modelled from the spec: the store's running `total_wt` — starts at 0 and
adds each appended sub-table's weight sum. -/
def storeTotalWt (g : List Char) (chunks : List (List Row)) : ℚ :=
  chunks.foldl (fun acc chunk => acc + weightOf (regionSubTable g chunk)) 0

/-- Modelled from the spec: the featurization phase's per-region total
weight (`region_weights` in the archive) — it re-reads the region's store in
chunks of its own and accumulates their weight sums. -/
def featurizeRegionWeight (readChunks : List (List Row)) : ℚ :=
  readChunks.foldl (fun acc chunk => acc + weightOf chunk) 0

/-- The view of a record taken by the Statistics Accumulator: some
categorical field, some continuous field and the sampling weight. -/
def rowStat (catF : Row → ℤ) (valF : Row → ℚ) (r : Row) : StatRow :=
  ⟨catF r, valF r, r.weight⟩

/-- The regions that received a store during partitioning: the distinct
region ids occurring in the input. -/
def regionIds (chunks : List (List Row)) : List (List Char) :=
  (chunks.flatten.map Row.region).dedup

theorem foldl_add_weightOf (f : List Row → List Row)
    (chunks : List (List Row)) (a : ℚ) :
    chunks.foldl (fun acc c => acc + weightOf (f c)) a =
      a + weightOf ((chunks.map f).flatten) := by
  induction chunks generalizing a with
  | nil => simp [weightOf]
  | cons c cs ih => simp [ih, weightOf_append]; ring

theorem storeTotalWt_eq (g : List Char) (chunks : List (List Row)) :
    storeTotalWt g chunks = weightOf (storeRows g chunks) := by
  rw [storeTotalWt, foldl_add_weightOf, storeRows, zero_add]

theorem featurizeRegionWeight_eq (readChunks : List (List Row)) :
    featurizeRegionWeight readChunks = weightOf readChunks.flatten := by
  rw [featurizeRegionWeight]
  have h := foldl_add_weightOf id readChunks 0
  simpa using h

theorem storeRows_eq_filter (g : List Char) (chunks : List (List Row)) :
    storeRows g chunks =
      chunks.flatten.filter (fun r => r.region == g) := by
  rw [storeRows, List.filter_flatten]
  rfl

theorem foldl_statStep_wTot (l : List StatRow) (s : StatState) :
    (l.foldl statStep s).wTot = s.wTot + (l.map StatRow.wt).sum := by
  induction l generalizing s with
  | nil => simp
  | cons r rs ih => simp [ih, statStep]; ring

/-- The Statistics Accumulator's accumulated total weight over a chunk
stream is the total weight of the flattened input, whichever fields it
tracks. -/
theorem accumulate_wTot (catF : Row → ℤ) (valF : Row → ℚ)
    (chunks : List (List Row)) :
    ((chunks.map (List.map (rowStat catF valF))).foldl accumulate
        initStats).wTot = weightOf chunks.flatten := by
  rw [accumulate_chunks_eq, foldl_statStep_wTot]
  have hm : ((chunks.map (List.map (rowStat catF valF))).flatten.map
      StatRow.wt) = chunks.flatten.map Row.weight := by
    rw [← List.map_flatten, List.map_map]
    rfl
  rw [hm]
  simp [initStats, weightOf]

theorem weightOf_filter_partition (p : Row → Bool) (rows : List Row) :
    weightOf (rows.filter p) +
      weightOf (rows.filter (fun r => !(p r))) = weightOf rows := by
  induction rows with
  | nil => simp [weightOf]
  | cons r rs ih =>
    cases h : p r <;>
      simp [List.filter_cons, h, weightOf_cons] <;> linarith [ih]

/-- Summing the per-fiber weights over a duplicate-free cover of the
occurring regions gives the total weight. -/
theorem sum_fiber_weights (keys : List (List Char)) (rows : List Row)
    (hnd : keys.Nodup) (hcov : ∀ r ∈ rows, r.region ∈ keys) :
    (keys.map (fun g => weightOf (rows.filter (fun r => r.region == g)))).sum
      = weightOf rows := by
  induction keys generalizing rows with
  | nil =>
    have hrows : rows = [] :=
      List.eq_nil_iff_forall_not_mem.mpr
        (fun r hr => absurd (hcov r hr) (List.not_mem_nil _))
    simp [hrows, weightOf]
  | cons g ks ih =>
    obtain ⟨hg, hndks⟩ := List.nodup_cons.mp hnd
    have hcov' : ∀ r ∈ rows.filter (fun r => !(r.region == g)),
        r.region ∈ ks := by
      intro r hr
      obtain ⟨hrrows, hne⟩ := List.mem_filter.mp hr
      rcases List.mem_cons.mp (hcov r hrrows) with h1 | h1
      · rw [h1] at hne; simp at hne
      · exact h1
    have hfib : ∀ g' ∈ ks,
        weightOf (rows.filter (fun r => r.region == g')) =
          weightOf ((rows.filter (fun r => !(r.region == g))).filter
            (fun r => r.region == g')) := by
      intro g' hg'
      have hgg' : g' ≠ g := fun hgg => hg (hgg ▸ hg')
      rw [List.filter_filter]
      congr 1
      apply List.filter_congr
      intro r _
      cases hrg : r.region == g' with
      | false => simp [hrg]
      | true =>
        have : r.region = g' := by simpa using hrg
        simp [hrg, this, hgg']
    simp only [List.map_cons, List.sum_cons]
    rw [List.map_congr_left hfib, ih _ hndks hcov']
    exact weightOf_filter_partition (fun r => r.region == g) rows

/-- C1: (i) for every region, the total weight the featurization phase
reports after re-reading that region's store — in chunks of any size — is
exactly the `total_wt` the partitioning phase accumulated in the store, and
(ii) the sum of all region stores' totals equals the total weight the
Statistics Accumulator accumulated over the same filtered chunk stream. -/
theorem region_weight_consistency (chunks readChunks : List (List Row))
    (g : List Char) (catF : Row → ℤ) (valF : Row → ℚ)
    (h : readChunks.flatten = storeRows g chunks) :
    featurizeRegionWeight readChunks = storeTotalWt g chunks ∧
      ((regionIds chunks).map (fun g' => storeTotalWt g' chunks)).sum =
        ((chunks.map (List.map (rowStat catF valF))).foldl accumulate
            initStats).wTot := by
  constructor
  · rw [featurizeRegionWeight_eq, h, storeTotalWt_eq]
  · rw [accumulate_wTot]
    have hmap : (regionIds chunks).map (fun g' => storeTotalWt g' chunks) =
        (regionIds chunks).map (fun g' =>
          weightOf (chunks.flatten.filter (fun r => r.region == g'))) := by
      apply List.map_congr_left
      intro g' _
      rw [storeTotalWt_eq, storeRows_eq_filter]
    rw [hmap]
    exact sum_fiber_weights _ _ ((chunks.flatten.map Row.region).nodup_dedup)
      (fun r hr => List.mem_dedup.mpr (List.mem_map_of_mem Row.region hr))

/-- Witness for C1 at a concrete input: one chunk containing the sample
record, the store for region `A` re-read as a single chunk. -/
theorem region_weight_consistency_witness :
    featurizeRegionWeight [storeRows ['A'] [[sampleRow]]] =
        storeTotalWt ['A'] [[sampleRow]] ∧
      ((regionIds [[sampleRow]]).map
          (fun g' => storeTotalWt g' [[sampleRow]])).sum =
        (([[sampleRow]].map (List.map (rowStat (fun _ => 0) (fun _ => 0)))).foldl
            accumulate initStats).wTot :=
  region_weight_consistency [[sampleRow]] [storeRows ['A'] [[sampleRow]]]
    ['A'] (fun _ => 0) (fun _ => 0) (by simp)

/-! ## The embedding archive (`do_featurize`, cli.py:167-194)

`do_featurize` calls `get_embeddings` (not in the source tree, so its return
values enter the model as parameters) and saves one `npz` archive: with
`skip_rbf` it saves `emb_lin`, `region_weights`, `feature_names` plus the
common entries `region_names` and `subset_queries` (cli.py:185-189);
otherwise it additionally saves `emb_rff`, `freqs` and `bandwidth`
(cli.py:190-194).  `subset_queries` stores `args.subsets` as given. -/

structure EmbeddingArchive where
  emb_lin : List (List ℚ)
  region_weights : List ℚ
  feature_names : List String
  region_names : List String
  subset_queries : Option String
  emb_rff : Option (List (List ℚ))
  freqs : Option (List (List ℚ))
  bandwidth : Option ℚ
deriving DecidableEq, Repr

/-- The entry names present in the saved archive: the five entries of every
save, plus the optional entries actually stored. -/
def archiveKeys (a : EmbeddingArchive) : List String :=
  ["emb_lin", "region_weights", "feature_names", "region_names",
    "subset_queries"] ++
    (if a.emb_rff.isSome then ["emb_rff"] else []) ++
    (if a.freqs.isSome then ["freqs"] else []) ++
    (if a.bandwidth.isSome then ["bandwidth"] else [])

/-- The featurize options that shape the archive: `--skip-rbf`
(cli.py:73-75) and `--subsets` (cli.py:108-111, absent by default). -/
structure FeaturizeArgs where
  skip_rbf : Bool
  subsets : Option String
deriving DecidableEq, Repr

/-- `do_featurize`'s archive construction (cli.py:183-194): the branch on
`args.skip_rbf` decides whether the RFF entries are stored at all. -/
def do_featurize (args : FeaturizeArgs) (el : List (List ℚ)) (rws : List ℚ)
    (fns rns : List String) (er : List (List ℚ)) (fq : List (List ℚ))
    (bw : ℚ) : EmbeddingArchive :=
  if args.skip_rbf then
    { emb_lin := el, region_weights := rws, feature_names := fns,
      region_names := rns, subset_queries := args.subsets,
      emb_rff := none, freqs := none, bandwidth := none }
  else
    { emb_lin := el, region_weights := rws, feature_names := fns,
      region_names := rns, subset_queries := args.subsets,
      emb_rff := some er, freqs := some fq, bandwidth := some bw }

/-- C3: with `skip_rbf` enabled, the archive contains exactly the linear
embedding, region weights, feature names, region names and subset-query
entries, and omits the RFF embedding, frequency matrix and bandwidth
entirely — the optional entries are absent, not zero placeholders. -/
theorem skip_rbf_archive (args : FeaturizeArgs) (el : List (List ℚ))
    (rws : List ℚ) (fns rns : List String) (er : List (List ℚ))
    (fq : List (List ℚ)) (bw : ℚ) (h : args.skip_rbf = true) :
    archiveKeys (do_featurize args el rws fns rns er fq bw) =
        ["emb_lin", "region_weights", "feature_names", "region_names",
          "subset_queries"] ∧
      (do_featurize args el rws fns rns er fq bw).emb_rff = none ∧
      (do_featurize args el rws fns rns er fq bw).freqs = none ∧
      (do_featurize args el rws fns rns er fq bw).bandwidth = none := by
  simp [do_featurize, h, archiveKeys]

/-- Witness for C3 at a concrete input. -/
theorem skip_rbf_archive_witness :
    archiveKeys (do_featurize ⟨true, some "SEX == 2"⟩ [[1]] [1] ["f"] ["A"]
          [] [] 0) =
        ["emb_lin", "region_weights", "feature_names", "region_names",
          "subset_queries"] ∧
      (do_featurize ⟨true, some "SEX == 2"⟩ [[1]] [1] ["f"] ["A"] [] []
          0).emb_rff = none ∧
      (do_featurize ⟨true, some "SEX == 2"⟩ [[1]] [1] ["f"] ["A"] [] []
          0).freqs = none ∧
      (do_featurize ⟨true, some "SEX == 2"⟩ [[1]] [1] ["f"] ["A"] [] []
          0).bandwidth = none :=
  skip_rbf_archive ⟨true, some "SEX == 2"⟩ [[1]] [1] ["f"] ["A"] [] [] 0 rfl

/-- C4: the archive of `do_featurize` always contains the linear embedding
matrix, the per-region weight vector, the feature names, the region names
and the subset-query strings exactly as supplied, and, when RFF is used
(`skip_rbf` off), also the RFF embedding matrix, the frequency matrix and
the bandwidth. -/
theorem featurize_archive_contents (args : FeaturizeArgs)
    (el : List (List ℚ)) (rws : List ℚ) (fns rns : List String)
    (er : List (List ℚ)) (fq : List (List ℚ)) (bw : ℚ) :
    (do_featurize args el rws fns rns er fq bw).emb_lin = el ∧
      (do_featurize args el rws fns rns er fq bw).region_weights = rws ∧
      (do_featurize args el rws fns rns er fq bw).feature_names = fns ∧
      (do_featurize args el rws fns rns er fq bw).region_names = rns ∧
      (do_featurize args el rws fns rns er fq bw).subset_queries =
        args.subsets ∧
      "emb_lin" ∈ archiveKeys (do_featurize args el rws fns rns er fq bw) ∧
      "region_weights" ∈
        archiveKeys (do_featurize args el rws fns rns er fq bw) ∧
      "feature_names" ∈
        archiveKeys (do_featurize args el rws fns rns er fq bw) ∧
      "region_names" ∈
        archiveKeys (do_featurize args el rws fns rns er fq bw) ∧
      "subset_queries" ∈
        archiveKeys (do_featurize args el rws fns rns er fq bw) ∧
      (args.skip_rbf = false →
        (do_featurize args el rws fns rns er fq bw).emb_rff = some er ∧
          (do_featurize args el rws fns rns er fq bw).freqs = some fq ∧
          (do_featurize args el rws fns rns er fq bw).bandwidth = some bw ∧
          "emb_rff" ∈
            archiveKeys (do_featurize args el rws fns rns er fq bw) ∧
          "freqs" ∈
            archiveKeys (do_featurize args el rws fns rns er fq bw) ∧
          "bandwidth" ∈
            archiveKeys (do_featurize args el rws fns rns er fq bw)) := by
  cases h : args.skip_rbf <;> simp [do_featurize, h, archiveKeys]

/-! ## CSV export (`do_export`, cli.py:197-222) -/

/-- One exported CSV: the index label written at the head of the index
column, the column header (the data frame's default integer labels when
`none`), and one `(index, values)` pair per data row. -/
structure ExportTable where
  indexLabel : String
  header : Option (List String)
  rows : List (String × List ℚ)
deriving DecidableEq, Repr

/-- The linear CSV (cli.py:210-214): the data frame of `emb_lin`, indexed by
`region_names`, columns relabeled to `feature_names`, index label
`region`. -/
def exportLinear (a : EmbeddingArchive) : ExportTable where
  indexLabel := "region"
  header := some a.feature_names
  rows := a.region_names.zip a.emb_lin

/-- The RFF CSV (cli.py:217-221): the data frame of `emb_rff`, indexed by
`region_names`, default column labels, index label `region`. -/
def exportRff (a : EmbeddingArchive) (e : List (List ℚ)) : ExportTable where
  indexLabel := "region"
  header := none
  rows := a.region_names.zip e

/-- `do_export` (cli.py:209-222): always writes the linear CSV; writes the
RFF CSV exactly when the archive has an `emb_rff` entry. -/
def do_export (a : EmbeddingArchive) : List (String × ExportTable) :=
  [("linear", exportLinear a)] ++
    (match a.emb_rff with
      | some e => [("rff", exportRff a e)]
      | none => [])

/-- C8: the exported linear CSV has exactly one row per region and one
column per feature, uses the region identifiers as the row index (under the
index label `region`), the rows carry the linear embedding's values, and the
columns are labeled by the archive's feature names in order. -/
theorem export_table_shape (a : EmbeddingArchive)
    (hlen : a.region_names.length = a.emb_lin.length)
    (hwid : ∀ row ∈ a.emb_lin, row.length = a.feature_names.length) :
    (exportLinear a).rows.length = a.region_names.length ∧
      (exportLinear a).rows.map Prod.fst = a.region_names ∧
      (exportLinear a).rows.map Prod.snd = a.emb_lin ∧
      (exportLinear a).header = some a.feature_names ∧
      (∀ p ∈ (exportLinear a).rows, p.2.length = a.feature_names.length) ∧
      (exportLinear a).indexLabel = "region" := by
  refine ⟨?_, ?_, ?_, rfl, ?_, rfl⟩
  · simp [exportLinear, hlen]
  · exact List.map_fst_zip _ _ (le_of_eq hlen)
  · exact List.map_snd_zip _ _ (le_of_eq hlen.symm)
  · intro p hp
    exact hwid p.2 (List.of_mem_zip hp).2

/-- A concrete archive used to instantiate export witnesses. -/
def sampleArchive : EmbeddingArchive where
  emb_lin := [[1, 2], [3, 4]]
  region_weights := [1, 1]
  feature_names := ["f0", "f1"]
  region_names := ["A", "B"]
  subset_queries := none
  emb_rff := none
  freqs := none
  bandwidth := none

/-- Witness for C8 at a concrete archive of two regions and two features. -/
theorem export_table_shape_witness :
    (exportLinear sampleArchive).rows.length =
        sampleArchive.region_names.length ∧
      (exportLinear sampleArchive).rows.map Prod.fst =
        sampleArchive.region_names ∧
      (exportLinear sampleArchive).rows.map Prod.snd =
        sampleArchive.emb_lin ∧
      (exportLinear sampleArchive).header =
        some sampleArchive.feature_names ∧
      (∀ p ∈ (exportLinear sampleArchive).rows,
        p.2.length = sampleArchive.feature_names.length) ∧
      (exportLinear sampleArchive).indexLabel = "region" :=
  export_table_shape sampleArchive rfl (by decide)

/-- C10: the export command always writes the linear CSV, writes the RFF
CSV exactly when the archive has an `emb_rff` entry, and on an archive
without one — such as any archive produced with `skip_rbf` — it writes only
the linear CSV. -/
theorem export_rff_iff_present (a : EmbeddingArchive) :
    ("linear", exportLinear a) ∈ do_export a ∧
      ((∃ t, ("rff", t) ∈ do_export a) ↔ a.emb_rff.isSome = true) ∧
      (a.emb_rff = none → do_export a = [("linear", exportLinear a)]) ∧
      (∀ args el rws fns rns er fq bw, args.skip_rbf = true →
        do_export (do_featurize args el rws fns rns er fq bw) =
          [("linear", exportLinear (do_featurize args el rws fns rns er fq
            bw))]) := by
  refine ⟨by simp [do_export], ?_, ?_, ?_⟩
  · cases h : a.emb_rff <;> simp [do_export, h]
  · intro h
    simp [do_export, h]
  · intro args el rws fns rns er fq bw h
    simp [do_export, do_featurize, h]

/-! ## Subset embeddings (C7)

`featurize.get_embeddings` is not in the source tree; the Kernel Embedding
Engine is modelled from the spec: the linear embedding of a row set is the
weighted average `sum(w_i * x_i) / sum(w_i)` of the encoded feature rows,
a subset query restricts the rows first, and an empty result after
filtering is valid — the embedding is all-zero with total weight 0, not an
error. -/

/-- Modelled from the spec: the linear kernel mean embedding of a list of
encoded rows over `d` feature columns — the componentwise weighted average
(`ℚ` division, so a zero total weight yields zero components). -/
def linearEmbedding (rows : List Row) (d : Nat) : List ℚ :=
  (List.range d).map (fun j =>
    (rows.map (fun r => r.weight * r.feats.getD j 0)).sum / weightOf rows)

/-- Modelled from the spec: what the featurizer computes for one region and
one subset query — the embedding of the matching rows and their total
weight; defined for every predicate, so an empty match is a value, never a
failure. -/
def subsetEmbedding (pred : Row → Bool) (rows : List Row) (d : Nat) :
    List ℚ × ℚ :=
  (linearEmbedding (rows.filter pred) d, weightOf (rows.filter pred))

/-- C7: a subset predicate matching zero rows of a region yields the
all-zero embedding with total weight 0 — a well-defined value, not an
error. -/
theorem empty_subset_embedding (pred : Row → Bool) (rows : List Row)
    (d : Nat) (h : ∀ r ∈ rows, pred r = false) :
    subsetEmbedding pred rows d = (List.replicate d 0, 0) := by
  have hnil : rows.filter pred = [] :=
    List.filter_eq_nil_iff.mpr (fun r hr => by simp [h r hr])
  simp [subsetEmbedding, hnil, linearEmbedding, weightOf, List.map_const']

/-- Witness for C7 at a concrete input: a never-matching predicate over one
sample record. -/
theorem empty_subset_embedding_witness :
    subsetEmbedding (fun _ => false) [sampleRow] 2 =
      (List.replicate 2 0, 0) :=
  empty_subset_embedding (fun _ => false) [sampleRow] 2 (fun _ _ => rfl)

end Pummeler
